import Mathlib

/-!
Shallow embedding of the one-way bit-accumulator core of the repository:

* `OnewayBitset`  — src/bitsets/OnewayBitset.hpp (full variant)
* `OnewayBitfield` — src/change_tracking_nextlvl/OnewayBitfield.hpp (reduced variant)

Blocks (`AllocT` values) are modelled as natural numbers kept below `2 ^ w`,
where `w` is the block width (`blocksize = sizeof(AllocT)*CHAR_BIT`).
The block array is a `List Nat`; `SizeT` index arithmetic is `Nat`
arithmetic, except where signedness/wraparound of `SizeT` matters
(the constructors), where it is modelled explicitly (`Int` input for the
full variant's sanitized constructor, wraparound modulo `2 ^ sw` for the
reduced variant's unsanitized `(nbits-1)/blocksize + 1`).
-/

/-- Block of alloc type with all bits 1 (`alloct_all = ~alloct_zero`), for width `w`. -/
def allOnes (w : Nat) : Nat := 2 ^ w - 1

/-- Pad block computed by both constructors:
`~( alloct_all << (nbits % blocksize) )`, truncated to the `w`-bit block type.
Complement in `w` bits is XOR with `allOnes w`; the shifted value is reduced
mod `2 ^ w` as the C++ assignment to `AllocT` does. -/
def padblkOf (w n : Nat) : Nat := allOnes w ^^^ (allOnes w <<< (n % w)) % 2 ^ w

/-- State of a `OnewayBitset<SizeT, AllocT>` object (full variant). -/
structure OnewayBitset where
  nbits : Nat
  nblocks : Nat
  padblk : Nat
  blocks : List Nat
  flag_zero : Bool
deriving DecidableEq, Repr

/-- State of a `OnewayBitfield<SizeT, AllocT>` object (reduced variant). -/
structure OnewayBitfield where
  nbits : Nat
  nblocks : Nat
  nrest : Nat
  padblk : Nat
  blocks : List Nat
  flag_zero : Bool
deriving DecidableEq, Repr

/-- Kernighan popcount loop shared by both `count()` implementations:
`while (blkval) { blkval = blkval & (blkval-1); ++count; }`. -/
def kern (v : Nat) : Nat :=
  if h : v = 0 then 0
  else kern (v &&& (v - 1)) + 1
termination_by v
decreasing_by exact Nat.lt_of_le_of_lt Nat.and_le_right (by omega)

/-- Specification popcount by binary recursion, used to characterise `kern`. -/
def popCt (v : Nat) : Nat :=
  if h : v = 0 then 0
  else v % 2 + popCt (v / 2)
termination_by v
decreasing_by exact Nat.div_lt_self (by omega) (by norm_num)

/-- Accumulation of the Kernighan popcount over the block array
(the outer `for` loop of `count()`). -/
def sumKern : List Nat → Nat
  | [] => 0
  | b :: bs => kern b + sumKern bs

/-- Block-array update done by `setAll()`:
`std::fill(_blocks, _blocks+_nblocks-1, alloct_all); _blocks[_nblocks-1] = _padblk;`. -/
def setAllBlocks (allv pad : Nat) : List Nat → List Nat
  | [] => []
  | [_] => [pad]
  | _ :: y :: xs => allv :: setAllBlocks allv pad (y :: xs)

/-- Block-array loop of `merge`: `_blocks[i] |= other._blocks[i]` for `i < _nblocks`.
Reads of the other array are modelled positionally (`headD`/`tail`). -/
def mergeBlocks : List Nat → List Nat → List Nat
  | [], _ => []
  | x :: xs, ys => (x ||| ys.headD 0) :: mergeBlocks xs ys.tail

/-- Block-array loop of `equals`: `std::equal(_blocks, _blocks+_nblocks, other._blocks)`. -/
def eqBlocks : List Nat → List Nat → Bool
  | [], _ => true
  | x :: xs, ys => (x == ys.headD 0) && eqBlocks xs ys.tail

/-- Loop of `all()` over the blocks: every block but the last compares to
`alloct_all`, the last to `_padblk`. -/
def allBlocks (allv pad : Nat) : List Nat → Bool
  | [] => true
  | [x] => x == pad
  | x :: y :: xs => (x == allv) && allBlocks allv pad (y :: xs)

/-- Inner `while (blkval)` loop of `getAll`: writes `blkval & 1` at `bitidx`,
shifts right by one, increments the index. -/
def writeBits (out : List Bool) (v : Nat) (idx : Nat) : List Bool :=
  if h : v = 0 then out
  else writeBits (out.set idx ((v &&& 1) == 1)) (v >>> 1) (idx + 1)
termination_by v
decreasing_by
  rw [Nat.shiftRight_one]
  exact Nat.div_lt_self (by omega) (by norm_num)

/-- Outer loop of `getAll` over the blocks, with running block offset. -/
def getAllBlocks (w : Nat) : List Nat → Nat → List Bool → List Bool
  | [], _, out => out
  | b :: bs, off, out => getAllBlocks w bs (off + w) (writeBits out b off)

/-- Constructor `OnewayBitset(const SizeT n_bits)` for a signed `SizeT`:
`_nbits = n_bits > 0 ? n_bits : 0`, `_nblocks = _nbits > 0 ? (_nbits-1)/blocksize + 1 : 0`,
`_padblk = ~(alloct_all << (_nbits % blocksize))`, then `reset()` zero-fills. -/
def mkBitset (w : Nat) (n : Int) : OnewayBitset :=
  let nbits : Nat := if n > 0 then n.toNat else 0
  let nblocks : Nat := if nbits > 0 then (nbits - 1) / w + 1 else 0
  { nbits := nbits
    nblocks := nblocks
    padblk := padblkOf w nbits
    blocks := List.replicate nblocks 0
    flag_zero := true }

namespace OnewayBitset

/-- Method `reset()`: zero-fill all blocks, flag becomes true. -/
def reset (s : OnewayBitset) : OnewayBitset :=
  { s with blocks := s.blocks.map (fun _ => 0), flag_zero := true }

/-- Method `set(index)`: `_blocks[index / blocksize] |= 1 << (index % blocksize)`,
flag becomes false. -/
def set (w : Nat) (s : OnewayBitset) (i : Nat) : OnewayBitset :=
  let blockIndex := i / w
  let bitIndex := i % w
  { s with
    blocks := s.blocks.set blockIndex ((s.blocks.getD blockIndex 0) ||| (1 <<< bitIndex))
    flag_zero := false }

/-- Method `setAll()`: all blocks but the last become `alloct_all`, the last
becomes `_padblk`, flag becomes false. -/
def setAll (w : Nat) (s : OnewayBitset) : OnewayBitset :=
  { s with blocks := setAllBlocks (allOnes w) s.padblk s.blocks, flag_zero := false }

/-- Method `get(index)`: `(_blocks[index / blocksize] >> (index % blocksize)) & 1`. -/
def get (w : Nat) (s : OnewayBitset) (i : Nat) : Bool :=
  (((s.blocks.getD (i / w) 0) >>> (i % w)) &&& 1) == 1

/-- Method `getAll(out)`: clear the buffer, return early on the zero flag,
else walk the blocks writing set bits. -/
def getAll (w : Nat) (s : OnewayBitset) : List Bool :=
  let out := List.replicate s.nbits false
  if s.flag_zero then out else getAllBlocks w s.blocks 0 out

/-- Method `empty()`: `_nbits == 0`. -/
def emptySet (s : OnewayBitset) : Bool := s.nbits == 0

/-- Method `any()`: `!_flag_zero`. -/
def any (s : OnewayBitset) : Bool := !s.flag_zero

/-- Method `none()`: `_flag_zero`. -/
def none (s : OnewayBitset) : Bool := s.flag_zero

/-- Method `all()`: false on the zero flag, else every block but the last
equals `alloct_all` and the last equals `_padblk`. -/
def all (w : Nat) (s : OnewayBitset) : Bool :=
  if s.flag_zero then false else allBlocks (allOnes w) s.padblk s.blocks

/-- Method `count()`: 0 on the zero flag, else Kernighan popcount summed
over the blocks. -/
def count (s : OnewayBitset) : Nat :=
  if s.flag_zero then 0 else sumKern s.blocks

/-- Method `merge(other)`: no-op on size mismatch, else block-wise OR and
flag conjunction. -/
def merge (s other : OnewayBitset) : OnewayBitset :=
  if s.nbits ≠ other.nbits then s
  else
    { s with
      blocks := mergeBlocks s.blocks other.blocks
      flag_zero := s.flag_zero && other.flag_zero }

/-- Method `equals(other)`: false on size mismatch, else block-wise equality. -/
def equals (s other : OnewayBitset) : Bool :=
  if s.nbits ≠ other.nbits then false else eqBlocks s.blocks other.blocks

end OnewayBitset

/-- Constructor `OnewayBitfield(const SizeT nbits)` for an unsigned `SizeT` of
bit width `sw` (the repository instantiates `SizeT = size_t`): no sanity check,
`nblocks = (nbits-1)/blocksize + 1` with `nbits-1` wrapping modulo `2 ^ sw`,
`nrest = nbits % blocksize`, `padblk = ~(alloct_all << nrest)`, then `reset()`. -/
def mkBitfield (w sw : Nat) (n : Nat) : OnewayBitfield :=
  let nblocks : Nat := ((n + (2 ^ sw - 1)) % 2 ^ sw) / w + 1
  { nbits := n
    nblocks := nblocks
    nrest := n % w
    padblk := padblkOf w n
    blocks := List.replicate nblocks 0
    flag_zero := true }

namespace OnewayBitfield

/-- Method `reset()` of the reduced variant. -/
def reset (s : OnewayBitfield) : OnewayBitfield :=
  { s with blocks := s.blocks.map (fun _ => 0), flag_zero := true }

/-- Method `set(index)` of the reduced variant. -/
def set (w : Nat) (s : OnewayBitfield) (i : Nat) : OnewayBitfield :=
  let blockIndex := i / w
  let bitIndex := i % w
  { s with
    blocks := s.blocks.set blockIndex ((s.blocks.getD blockIndex 0) ||| (1 <<< bitIndex))
    flag_zero := false }

/-- Method `setAll()` of the reduced variant. -/
def setAll (w : Nat) (s : OnewayBitfield) : OnewayBitfield :=
  { s with blocks := setAllBlocks (allOnes w) s.padblk s.blocks, flag_zero := false }

/-- Method `get(index)` of the reduced variant: unlike the full variant it
returns false immediately when the zero flag is set. -/
def get (w : Nat) (s : OnewayBitfield) (i : Nat) : Bool :=
  if s.flag_zero then false
  else (((s.blocks.getD (i / w) 0) >>> (i % w)) &&& 1) == 1

/-- Method `getAll(out)` of the reduced variant. -/
def getAll (w : Nat) (s : OnewayBitfield) : List Bool :=
  let out := List.replicate s.nbits false
  if s.flag_zero then out else getAllBlocks w s.blocks 0 out

/-- Method `any()` of the reduced variant. -/
def any (s : OnewayBitfield) : Bool := !s.flag_zero

/-- Method `none()` of the reduced variant. -/
def none (s : OnewayBitfield) : Bool := s.flag_zero

/-- Method `all()` of the reduced variant. -/
def all (w : Nat) (s : OnewayBitfield) : Bool :=
  if s.flag_zero then false else allBlocks (allOnes w) s.padblk s.blocks

/-- Method `count()` of the reduced variant. -/
def count (s : OnewayBitfield) : Nat :=
  if s.flag_zero then 0 else sumKern s.blocks

/-- Method `merge(other)` of the reduced variant: no size guard. -/
def merge (s other : OnewayBitfield) : OnewayBitfield :=
  { s with
    blocks := mergeBlocks s.blocks other.blocks
    flag_zero := s.flag_zero && other.flag_zero }

/-- Method `equals(other)` of the reduced variant: no size guard. -/
def equals (s other : OnewayBitfield) : Bool :=
  eqBlocks s.blocks other.blocks

end OnewayBitfield

/-- Well-formedness of a full-variant state: the derived constants agree with
the constructor formulas for its bit count, the block array has `_nblocks`
entries, and every block fits the `w`-bit block type. -/
def OnewayBitset.WF (w : Nat) (s : OnewayBitset) : Prop :=
  s.nblocks = (if 0 < s.nbits then (s.nbits - 1) / w + 1 else 0) ∧
  s.padblk = padblkOf w s.nbits ∧
  s.blocks.length = s.nblocks ∧
  ∀ b ∈ s.blocks, b < 2 ^ w

/-- Padding bits of the final block (bit positions at or beyond `_nbits`) read 0. -/
def OnewayBitset.PadZero (w : Nat) (s : OnewayBitset) : Prop :=
  ∀ j, j < w → s.nbits ≤ (s.nblocks - 1) * w + j →
    (s.blocks.getD (s.nblocks - 1) 0).testBit j = false

/-- States of `OnewayBitset` produced by the public interface: construction
(also the post-move source state and assignment targets, which coincide with
constructed or copied states), `set` with a valid index, `setAll` on a
non-empty bitset, `reset`, and `merge`. -/
inductive OnewayBitset.Reachable (w : Nat) : OnewayBitset → Prop
  | mk (n : Int) : Reachable w (mkBitset w n)
  | set {s : OnewayBitset} (hs : Reachable w s) {i : Nat} (hi : i < s.nbits) :
      Reachable w (OnewayBitset.set w s i)
  | setAll {s : OnewayBitset} (hs : Reachable w s) (hn : 0 < s.nbits) :
      Reachable w (OnewayBitset.setAll w s)
  | reset {s : OnewayBitset} (hs : Reachable w s) : Reachable w s.reset
  | merge {s t : OnewayBitset} (hs : Reachable w s) (ht : Reachable w t) :
      Reachable w (s.merge t)

/-- Histories of shared mutating operations, as exercised against both
variants for the refinement claim; a `merge` operand is itself built by a
history applied to a fresh same-size object. -/
inductive Op where
  | set (i : Nat)
  | setAll
  | reset
  | merge (ops : List Op)
deriving Repr

/-- Validity of one history entry for bit count `n`: `set` indices stay in
range and merge operands are built from valid histories. -/
inductive ValidOp (n : Nat) : Op → Prop
  | set {i : Nat} : i < n → ValidOp n (Op.set i)
  | setAll : ValidOp n Op.setAll
  | reset : ValidOp n Op.reset
  | merge {ops : List Op} : (∀ op ∈ ops, ValidOp n op) → ValidOp n (Op.merge ops)

mutual

/-- Apply one history entry to a full-variant state. -/
def stepSet (w : Nat) (n : Int) (s : OnewayBitset) : Op → OnewayBitset
  | Op.set i => OnewayBitset.set w s i
  | Op.setAll => OnewayBitset.setAll w s
  | Op.reset => OnewayBitset.reset s
  | Op.merge ops => OnewayBitset.merge s (runSetFrom w n (mkBitset w n) ops)

/-- Run a history left to right on a full-variant state. -/
def runSetFrom (w : Nat) (n : Int) (s : OnewayBitset) : List Op → OnewayBitset
  | [] => s
  | op :: rest => runSetFrom w n (stepSet w n s op) rest

end

mutual

/-- Apply one history entry to a reduced-variant state. -/
def stepField (w sw : Nat) (n : Nat) (f : OnewayBitfield) : Op → OnewayBitfield
  | Op.set i => OnewayBitfield.set w f i
  | Op.setAll => OnewayBitfield.setAll w f
  | Op.reset => OnewayBitfield.reset f
  | Op.merge ops => OnewayBitfield.merge f (runFieldFrom w sw n (mkBitfield w sw n) ops)

/-- Run a history left to right on a reduced-variant state. -/
def runFieldFrom (w sw : Nat) (n : Nat) (f : OnewayBitfield) : List Op → OnewayBitfield
  | [] => f
  | op :: rest => runFieldFrom w sw n (stepField w sw n f op) rest

end

/-- Correspondence between a full-variant and a reduced-variant state of bit
count `n`: equal derived constants, equal block arrays, equal emptiness flags,
and exactness of the flag (flag set implies all blocks zero). -/
def Corr9 (n : Nat) (s : OnewayBitset) (f : OnewayBitfield) : Prop :=
  s.nbits = n ∧ f.nbits = n ∧ s.nblocks = f.nblocks ∧ s.padblk = f.padblk ∧
  s.blocks = f.blocks ∧ s.flag_zero = f.flag_zero ∧
  (s.flag_zero = true → ∀ b ∈ s.blocks, b = 0)

/-! Arithmetic facts about the Kernighan loop, the specification popcount
and the pad-block formula. -/

theorem kern_zero : kern 0 = 0 := by rw [kern]; rfl

theorem kern_step {v : Nat} (h : v ≠ 0) : kern v = kern (v &&& (v - 1)) + 1 := by
  rw [kern, dif_neg h]

theorem popCt_zero : popCt 0 = 0 := by rw [popCt]; rfl

theorem popCt_step {v : Nat} (h : v ≠ 0) : popCt v = v % 2 + popCt (v / 2) := by
  rw [popCt, dif_neg h]

theorem popCt_bit (b : Bool) (n : Nat) : popCt (Nat.bit b n) = popCt n + b.toNat := by
  cases b with
  | false =>
    rcases Nat.eq_zero_or_pos n with rfl | hn
    · simp [Nat.bit_val, popCt_zero]
    · rw [Nat.bit_val]
      simp only [Bool.toNat_false, Nat.add_zero]
      rw [popCt_step (by omega : (2 * n : Nat) ≠ 0),
        show (2 * n : Nat) % 2 = 0 by omega, show (2 * n : Nat) / 2 = n by omega]
      omega
  | true =>
    rw [Nat.bit_val]
    simp only [Bool.toNat_true]
    rw [popCt_step (by omega : (2 * n + 1 : Nat) ≠ 0),
      show (2 * n + 1 : Nat) % 2 = 1 by omega, show (2 * n + 1 : Nat) / 2 = n by omega]
    omega

theorem and_pred_even (n : Nat) (hn : n ≠ 0) :
    (2 * n) &&& (2 * n - 1) = 2 * (n &&& (n - 1)) := by
  have h := Nat.land_bit false n true (n - 1)
  simp [Nat.bit_val] at h
  rwa [show 2 * (n - 1) + 1 = 2 * n - 1 by omega] at h

theorem and_pred_odd (n : Nat) : (2 * n + 1) &&& (2 * n) = 2 * n := by
  have h := Nat.land_bit true n false n
  simp [Nat.bit_val, Nat.and_self] at h
  exact h

theorem kern_two_mul (n : Nat) : kern (2 * n) = kern n := by
  induction n using Nat.strong_induction_on with
  | _ n ih =>
    rcases Nat.eq_zero_or_pos n with rfl | hn
    · norm_num
    · rw [kern_step (by omega : (2 * n : Nat) ≠ 0), and_pred_even n (by omega),
        ih (n &&& (n - 1)) (Nat.lt_of_le_of_lt Nat.and_le_right (by omega)),
        ← kern_step (by omega : n ≠ 0)]

theorem kern_bit (b : Bool) (n : Nat) : kern (Nat.bit b n) = kern n + b.toNat := by
  cases b with
  | false => rw [Nat.bit_val]; simpa using kern_two_mul n
  | true =>
    rw [Nat.bit_val]
    simp only [Bool.toNat_true]
    rw [kern_step (by omega : (2 * n + 1 : Nat) ≠ 0),
      show (2 * n + 1 - 1 : Nat) = 2 * n by omega, and_pred_odd, kern_two_mul]

theorem kern_eq_popCt (v : Nat) : kern v = popCt v := by
  induction v using Nat.binaryRec with
  | z => rw [kern_zero, popCt_zero]
  | f b n ih => rw [kern_bit, popCt_bit, ih]

theorem popCt_or_two_pow (k : Nat) :
    ∀ v : Nat, v.testBit k = false → popCt (v ||| 2 ^ k) = popCt v + 1 := by
  induction k with
  | zero =>
    intro v hv
    have hdecomp : Nat.bit (v.testBit 0) (v >>> 1) = v := Nat.bit_testBit_zero_shiftRight_one v
    rw [hv] at hdecomp
    rw [← hdecomp, show (2 : Nat) ^ 0 = Nat.bit true 0 by simp [Nat.bit_val], Nat.lor_bit]
    simp only [Bool.false_or, Nat.or_zero]
    rw [popCt_bit, popCt_bit]
    simp
  | succ k ih =>
    intro v hv
    have hdecomp : Nat.bit (v.testBit 0) (v >>> 1) = v := Nat.bit_testBit_zero_shiftRight_one v
    rw [← hdecomp] at hv ⊢
    rw [show (2 : Nat) ^ (k + 1) = Nat.bit false (2 ^ k) by simp [Nat.bit_val]; ring, Nat.lor_bit]
    rw [Nat.testBit_bit_succ] at hv
    simp only [Bool.or_false]
    rw [popCt_bit, popCt_bit, ih _ hv]
    omega

theorem or_two_pow_of_testBit {v k : Nat} (h : v.testBit k = true) : v ||| 2 ^ k = v := by
  apply Nat.eq_of_testBit_eq
  intro i
  rw [Nat.testBit_or, Nat.testBit_two_pow]
  rcases eq_or_ne k i with rfl | hne
  · simp [h]
  · simp [hne]

theorem popCt_two_pow (k : Nat) : popCt (2 ^ k) = 1 := by
  have h := popCt_or_two_pow k 0 (by simp)
  simpa [popCt_zero] using h

theorem padblkOf_eq {w : Nat} (hw : 0 < w) (n : Nat) : padblkOf w n = 2 ^ (n % w) - 1 := by
  have hr : n % w < w := Nat.mod_lt n hw
  apply Nat.eq_of_testBit_eq
  intro i
  rw [padblkOf, allOnes, Nat.testBit_xor, Nat.testBit_mod_two_pow, Nat.testBit_shiftLeft,
    Nat.testBit_two_pow_sub_one, Nat.testBit_two_pow_sub_one]
  by_cases h1 : i < w
  · by_cases h2 : n % w ≤ i
    · simp [h1, h2, show i - n % w < w by omega, show ¬(i < n % w) by omega]
    · simp [h1, show ¬(n % w ≤ i) by omega, show i < n % w by omega]
  · simp [h1, show ¬(i < n % w) by omega]

/-! List-level facts about the block-array loops. -/

theorem getD_set_self (l : List Nat) (i v : Nat) (h : i < l.length) :
    (l.set i v).getD i 0 = v := by
  simp [List.getD_eq_getElem?_getD, List.getElem?_set, h]

theorem getD_set_ne (l : List Nat) {i j : Nat} (v : Nat) (h : i ≠ j) :
    (l.set i v).getD j 0 = l.getD j 0 := by
  simp [List.getD_eq_getElem?_getD, List.getElem?_set, h]

theorem set_of_length_le (l : List Nat) (v : Nat) : ∀ i, l.length ≤ i → l.set i v = l := by
  induction l with
  | nil => intro i _; rfl
  | cons x xs ih =>
    intro i h
    cases i with
    | zero => simp at h
    | succ i => simp only [List.set]; rw [ih i (by simpa using h)]

theorem getD_prop {P : Nat → Prop} (h0 : P 0) (l : List Nat) :
    (∀ b ∈ l, P b) → ∀ i, P (l.getD i 0) := by
  induction l with
  | nil => intro _ i; simpa using h0
  | cons x xs ih =>
    intro h i
    cases i with
    | zero => exact h x (by simp)
    | succ i => exact ih (fun b hb => h b (by simp [hb])) i

theorem sumKern_eq_zero {l : List Nat} (h : ∀ b ∈ l, b = 0) : sumKern l = 0 := by
  induction l with
  | nil => rfl
  | cons x xs ih =>
    simp [sumKern, h x (by simp), kern_zero, ih (fun b hb => h b (by simp [hb]))]

theorem sumKern_set (l : List Nat) (v : Nat) : ∀ i, i < l.length →
    sumKern (l.set i v) + kern (l.getD i 0) = sumKern l + kern v := by
  induction l with
  | nil => intro i h; simp at h
  | cons x xs ih =>
    intro i h
    cases i with
    | zero => simp [sumKern]; omega
    | succ i =>
      have hih := ih i (by simpa using h)
      simp only [List.set, sumKern, List.getD_cons_succ]
      omega

theorem mergeBlocks_length (a : List Nat) : ∀ b, (mergeBlocks a b).length = a.length := by
  induction a with
  | nil => intro b; rfl
  | cons x xs ih => intro b; simp [mergeBlocks, ih]

theorem headD_eq_getD_zero (b : List Nat) : b.headD 0 = b.getD 0 0 := by
  cases b <;> rfl

theorem tail_getD (b : List Nat) (i : Nat) : b.tail.getD i 0 = b.getD (i + 1) 0 := by
  cases b <;> simp [List.getD_cons_succ]

theorem mergeBlocks_getD (a : List Nat) : ∀ (b : List Nat) (i : Nat), i < a.length →
    (mergeBlocks a b).getD i 0 = a.getD i 0 ||| b.getD i 0 := by
  induction a with
  | nil => intro b i h; simp at h
  | cons x xs ih =>
    intro b i h
    cases i with
    | zero =>
      show ((x ||| b.headD 0) :: mergeBlocks xs b.tail).getD 0 0 = _
      cases b <;> simp
    | succ i =>
      show ((x ||| b.headD 0) :: mergeBlocks xs b.tail).getD (i + 1) 0 = _
      rw [List.getD_cons_succ, List.getD_cons_succ, ih b.tail i (by simpa using h), tail_getD]

theorem mergeBlocks_comm (a : List Nat) : ∀ b : List Nat, a.length = b.length →
    mergeBlocks a b = mergeBlocks b a := by
  induction a with
  | nil =>
    intro b h
    cases b with
    | nil => rfl
    | cons y ys => simp at h
  | cons x xs ih =>
    intro b h
    cases b with
    | nil => simp at h
    | cons y ys =>
      show (x ||| y) :: mergeBlocks xs ys = (y ||| x) :: mergeBlocks ys xs
      rw [Nat.lor_comm, ih ys (by simpa using h)]

theorem mergeBlocks_idem (a : List Nat) : ∀ b : List Nat,
    mergeBlocks (mergeBlocks a b) b = mergeBlocks a b := by
  induction a with
  | nil => intro b; rfl
  | cons x xs ih =>
    intro b
    show ((x ||| b.headD 0) ||| b.headD 0) :: mergeBlocks (mergeBlocks xs b.tail) b.tail = _
    rw [Nat.lor_assoc, Nat.or_self, ih b.tail]
    rfl

theorem mergeBlocks_zero_right (a : List Nat) : ∀ b : List Nat, (∀ y ∈ b, y = 0) →
    mergeBlocks a b = a := by
  induction a with
  | nil => intro b _; rfl
  | cons x xs ih =>
    intro b h
    show (x ||| b.headD 0) :: mergeBlocks xs b.tail = x :: xs
    rw [ih b.tail (fun y hy => h y (List.mem_of_mem_tail hy))]
    cases b with
    | nil => simp
    | cons z zs => simp [h z (by simp)]

theorem mergeBlocks_mem_zero {a : List Nat} : ∀ {b : List Nat}, (∀ x ∈ a, x = 0) →
    (∀ y ∈ b, y = 0) → ∀ z ∈ mergeBlocks a b, z = 0 := by
  induction a with
  | nil => intro b _ _ z hz; simp [mergeBlocks] at hz
  | cons x xs ih =>
    intro b ha hb z hz
    rcases (by simpa [mergeBlocks] using hz : z = x ||| b.headD 0 ∨ z ∈ mergeBlocks xs b.tail)
      with rfl | hz
    · rw [ha x (by simp)]
      cases b with
      | nil => simp
      | cons y ys => simp [hb y (by simp)]
    · exact ih (fun u hu => ha u (by simp [hu]))
        (fun y hy => hb y (List.mem_of_mem_tail hy)) z hz

theorem mergeBlocks_mem_lt {w : Nat} {a : List Nat} : ∀ {b : List Nat}, (∀ x ∈ a, x < 2 ^ w) →
    (∀ y ∈ b, y < 2 ^ w) → ∀ z ∈ mergeBlocks a b, z < 2 ^ w := by
  induction a with
  | nil => intro b _ _ z hz; simp [mergeBlocks] at hz
  | cons x xs ih =>
    intro b ha hb z hz
    rcases (by simpa [mergeBlocks] using hz : z = x ||| b.headD 0 ∨ z ∈ mergeBlocks xs b.tail)
      with rfl | hz
    · have hx : x < 2 ^ w := ha x (by simp)
      have hh : b.headD 0 < 2 ^ w := by
        cases b with
        | nil => exact Nat.two_pow_pos w
        | cons y ys => exact hb y (by simp)
      exact Nat.or_lt_two_pow hx hh
    · exact ih (fun u hu => ha u (by simp [hu]))
        (fun y hy => hb y (List.mem_of_mem_tail hy)) z hz

theorem setAllBlocks_length (allv pad : Nat) : ∀ l : List Nat,
    (setAllBlocks allv pad l).length = l.length := by
  intro l
  induction l with
  | nil => rfl
  | cons x xs ih =>
    cases xs with
    | nil => rfl
    | cons y ys =>
      show (allv :: setAllBlocks allv pad (y :: ys)).length = (x :: y :: ys).length
      simpa using ih

theorem setAllBlocks_getD_last (allv pad : Nat) : ∀ l : List Nat, l ≠ [] →
    (setAllBlocks allv pad l).getD (l.length - 1) 0 = pad := by
  intro l
  induction l with
  | nil => intro h; exact absurd rfl h
  | cons x xs ih =>
    intro _
    cases xs with
    | nil => rfl
    | cons y ys =>
      have h1 : (x :: y :: ys).length - 1 = ((y :: ys).length - 1) + 1 := by simp
      rw [show setAllBlocks allv pad (x :: y :: ys) = allv :: setAllBlocks allv pad (y :: ys)
          from rfl, h1, List.getD_cons_succ]
      exact ih (by simp)

theorem setAllBlocks_getD_lt (allv pad : Nat) : ∀ (l : List Nat) (i : Nat), i < l.length - 1 →
    (setAllBlocks allv pad l).getD i 0 = allv := by
  intro l
  induction l with
  | nil => intro i h; simp at h
  | cons x xs ih =>
    intro i h
    cases xs with
    | nil => simp at h
    | cons y ys =>
      cases i with
      | zero => rfl
      | succ i =>
        rw [show setAllBlocks allv pad (x :: y :: ys) = allv :: setAllBlocks allv pad (y :: ys)
            from rfl, List.getD_cons_succ]
        apply ih i
        simp at h ⊢
        omega

theorem setAllBlocks_mem (allv pad : Nat) : ∀ l : List Nat,
    ∀ z ∈ setAllBlocks allv pad l, z = allv ∨ z = pad := by
  intro l
  induction l with
  | nil => intro z hz; simp [setAllBlocks] at hz
  | cons x xs ih =>
    intro z hz
    cases xs with
    | nil => simp [setAllBlocks] at hz; right; exact hz
    | cons y ys =>
      rcases (by simpa [setAllBlocks] using hz : z = allv ∨ z ∈ setAllBlocks allv pad (y :: ys))
        with rfl | hz
      · left; rfl
      · exact ih z hz

/-! State-level invariants of the full variant. -/

theorem div_lt_blocks {w n i : Nat} (hi : i < n) : i / w < (n - 1) / w + 1 := by
  have h := Nat.div_le_div_right (c := w) (by omega : i ≤ n - 1)
  omega

namespace OnewayBitset

theorem merge_of_ne {s t : OnewayBitset} (h : s.nbits ≠ t.nbits) : s.merge t = s := by
  rw [merge, if_pos h]

theorem merge_of_eq {s t : OnewayBitset} (h : s.nbits = t.nbits) :
    s.merge t = { s with blocks := mergeBlocks s.blocks t.blocks,
                         flag_zero := s.flag_zero && t.flag_zero } := by
  rw [merge, if_neg (by simpa using h)]

theorem flag_zero_blocks {w : Nat} {s : OnewayBitset} (h : Reachable w s) :
    s.flag_zero = true → ∀ b ∈ s.blocks, b = 0 := by
  induction h with
  | mk n =>
    intro _ b hb
    exact List.eq_of_mem_replicate (hb : b ∈ List.replicate _ 0)
  | @set s hs i hi ih => intro hf; exact absurd hf (by exact Bool.false_ne_true)
  | @setAll s hs hn ih => intro hf; exact absurd hf (by exact Bool.false_ne_true)
  | @reset s hs ih =>
    intro _ b hb
    rcases List.mem_map.mp (hb : b ∈ s.blocks.map (fun _ => 0)) with ⟨a, _, rfl⟩
    rfl
  | @merge s t hs ht ihs iht =>
    intro hf b hb
    by_cases hne : s.nbits = t.nbits
    · rw [merge_of_eq hne] at hf hb
      rcases Bool.and_eq_true_iff.mp hf with ⟨hfs, hft⟩
      exact mergeBlocks_mem_zero (ihs hfs) (iht hft) b hb
    · rw [merge_of_ne hne] at hf hb
      exact ihs hf b hb

theorem reachable_wf {w : Nat} (hw : 0 < w) {s : OnewayBitset} (h : Reachable w s) :
    WF w s := by
  induction h with
  | mk n =>
    refine ⟨rfl, rfl, by simp [mkBitset], ?_⟩
    intro b hb
    rw [List.eq_of_mem_replicate (hb : b ∈ List.replicate _ 0)]
    exact Nat.two_pow_pos w
  | @set s hs i hi ih =>
    obtain ⟨h1, h2, h3, h4⟩ := ih
    refine ⟨h1, h2, ?_, ?_⟩
    · show (s.blocks.set (i / w) _).length = s.nblocks
      rw [List.length_set]; exact h3
    · intro b hb
      rcases List.mem_or_eq_of_mem_set
        (hb : b ∈ s.blocks.set (i / w) (s.blocks.getD (i / w) 0 ||| 1 <<< (i % w)))
        with hb' | rfl
      · exact h4 b hb'
      · have hold : s.blocks.getD (i / w) 0 < 2 ^ w :=
          getD_prop (P := fun x => x < 2 ^ w) (Nat.two_pow_pos w) s.blocks h4 (i / w)
        have hbit : (1 : Nat) <<< (i % w) < 2 ^ w := by
          rw [Nat.shiftLeft_eq, Nat.one_mul]
          exact Nat.pow_lt_pow_right (by norm_num) (Nat.mod_lt i hw)
        exact Nat.or_lt_two_pow hold hbit
  | @setAll s hs hn ih =>
    obtain ⟨h1, h2, h3, h4⟩ := ih
    refine ⟨h1, h2, ?_, ?_⟩
    · show (setAllBlocks (allOnes w) s.padblk s.blocks).length = s.nblocks
      rw [setAllBlocks_length]; exact h3
    · intro b hb
      have hpos := Nat.two_pow_pos w
      rcases setAllBlocks_mem (allOnes w) s.padblk s.blocks b
        (hb : b ∈ setAllBlocks (allOnes w) s.padblk s.blocks) with rfl | rfl
      · rw [allOnes]; omega
      · rw [h2, padblkOf_eq hw]
        have hle : 2 ^ (s.nbits % w) ≤ 2 ^ w :=
          Nat.pow_le_pow_right (by norm_num) (Nat.le_of_lt (Nat.mod_lt _ hw))
        omega
  | @reset s hs ih =>
    obtain ⟨h1, h2, h3, h4⟩ := ih
    refine ⟨h1, h2, ?_, ?_⟩
    · show (s.blocks.map (fun _ => 0)).length = s.nblocks
      rw [List.length_map]; exact h3
    · intro b hb
      rcases List.mem_map.mp (hb : b ∈ s.blocks.map (fun _ => 0)) with ⟨a, _, rfl⟩
      exact Nat.two_pow_pos w
  | @merge s t hs ht ihs iht =>
    obtain ⟨h1, h2, h3, h4⟩ := ihs
    obtain ⟨g1, g2, g3, g4⟩ := iht
    by_cases hne : s.nbits = t.nbits
    · rw [merge_of_eq hne]
      refine ⟨h1, h2, ?_, fun b hb => mergeBlocks_mem_lt h4 g4 b hb⟩
      show (mergeBlocks s.blocks t.blocks).length = s.nblocks
      rw [mergeBlocks_length]; exact h3
    · rw [merge_of_ne hne]
      exact ⟨h1, h2, h3, h4⟩

end OnewayBitset

theorem getD_of_length_le (l : List Nat) : ∀ i, l.length ≤ i → l.getD i 0 = 0 := by
  induction l with
  | nil => intro i _; cases i <;> rfl
  | cons x xs ih =>
    intro i h
    cases i with
    | zero => simp at h
    | succ i => rw [List.getD_cons_succ]; exact ih i (by simpa using h)

namespace OnewayBitset

theorem padZero_mk (w : Nat) (n : Int) : PadZero w (mkBitset w n) := by
  intro j hj hge
  have hz : (mkBitset w n).blocks.getD ((mkBitset w n).nblocks - 1) 0 = 0 :=
    getD_prop (P := fun x => x = 0) rfl _ (fun b hb => List.eq_of_mem_replicate hb) _
  rw [hz]
  exact Nat.zero_testBit j

theorem padZero_reset {w : Nat} (s : OnewayBitset) : PadZero w s.reset := by
  intro j hj hge
  have hz : s.reset.blocks.getD (s.reset.nblocks - 1) 0 = 0 :=
    getD_prop (P := fun x => x = 0) rfl _
      (fun b hb => by rcases List.mem_map.mp hb with ⟨a, _, rfl⟩; rfl) _
  rw [hz]
  exact Nat.zero_testBit j

theorem padZero_set {w : Nat} {s : OnewayBitset} (h : PadZero w s) {i : Nat}
    (hi : i < s.nbits) : PadZero w (set w s i) := by
  intro j hj hge
  show ((s.blocks.set (i / w) (s.blocks.getD (i / w) 0 ||| 1 <<< (i % w))).getD
    (s.nblocks - 1) 0).testBit j = false
  have hge' : s.nbits ≤ (s.nblocks - 1) * w + j := hge
  by_cases hb : i / w = s.nblocks - 1
  · by_cases hlen : i / w < s.blocks.length
    · rw [← hb, getD_set_self _ _ _ hlen, Nat.testBit_or]
      have h1 : (s.blocks.getD (i / w) 0).testBit j = false := by
        have h2 := h j hj hge'
        rwa [← hb] at h2
      rw [h1, Nat.shiftLeft_eq, Nat.one_mul, Nat.testBit_two_pow]
      simp only [Bool.false_or]
      apply decide_eq_false
      intro hji
      have hx : (s.nblocks - 1) * w + j = i := by
        rw [← hb, ← hji, Nat.mul_comm]
        exact Nat.div_add_mod i w
      omega
    · rw [set_of_length_le _ _ _ (by omega : s.blocks.length ≤ i / w)]
      exact h j hj hge'
  · rw [getD_set_ne _ _ hb]
    exact h j hj hge'

theorem padZero_setAll {w : Nat} {s : OnewayBitset} (hw : 0 < w) (hn : 0 < s.nbits)
    (hnb : s.nblocks = (s.nbits - 1) / w + 1) (hpad : s.padblk = padblkOf w s.nbits)
    (hlen : s.blocks.length = s.nblocks) : PadZero w (setAll w s) := by
  intro j hj hge
  show ((setAllBlocks (allOnes w) s.padblk s.blocks).getD (s.nblocks - 1) 0).testBit j = false
  have hge' : s.nbits ≤ (s.nblocks - 1) * w + j := hge
  have hne : s.blocks ≠ [] := by
    intro hnil
    have hl0 : s.blocks.length = 0 := by rw [hnil]; rfl
    rw [hlen, hnb] at hl0
    exact Nat.succ_ne_zero _ hl0
  have hlast := setAllBlocks_getD_last (allOnes w) s.padblk s.blocks hne
  rw [show s.nblocks - 1 = s.blocks.length - 1 by omega, hlast, hpad, padblkOf_eq hw,
    Nat.testBit_two_pow_sub_one]
  apply decide_eq_false
  intro hlt
  obtain ⟨q, r, hdm, hr, hmod⟩ :
      ∃ q r, w * q + r = s.nbits ∧ r < w ∧ s.nbits % w = r :=
    ⟨s.nbits / w, s.nbits % w, Nat.div_add_mod s.nbits w, Nat.mod_lt _ hw, rfl⟩
  rw [hmod] at hlt
  rcases Nat.eq_zero_or_pos r with rfl | hrpos
  · omega
  · have hpred : (s.nbits - 1) / w = q := by
      have hsub : s.nbits - 1 = w * q + (r - 1) := by omega
      rw [hsub, Nat.mul_add_div hw, Nat.div_eq_of_lt (by omega : r - 1 < w)]
      rfl
    rw [hnb, hpred] at hge'
    have hge2 : s.nbits ≤ w * q + j := by
      rw [Nat.add_sub_cancel, Nat.mul_comm] at hge'
      exact hge'
    omega

theorem padZero_merge {w : Nat} {s t : OnewayBitset} (hps : PadZero w s) (hpt : PadZero w t)
    (hbits : s.nbits = t.nbits) (hblks : s.nblocks = t.nblocks) : PadZero w (s.merge t) := by
  rw [merge_of_eq hbits]
  intro j hj hge
  have hge' : s.nbits ≤ (s.nblocks - 1) * w + j := hge
  show ((mergeBlocks s.blocks t.blocks).getD (s.nblocks - 1) 0).testBit j = false
  by_cases hlen : s.nblocks - 1 < s.blocks.length
  · rw [mergeBlocks_getD _ _ _ hlen, Nat.testBit_or, hps j hj hge', Bool.false_or]
    have h2 := hpt j hj (by rw [← hbits, ← hblks]; exact hge')
    rwa [← hblks] at h2
  · rw [getD_of_length_le _ _ (by rw [mergeBlocks_length]; omega)]
    exact Nat.zero_testBit j

end OnewayBitset

/-! Correspondence between the two variants (refinement). -/

theorem corr_get {w n : Nat} {s : OnewayBitset} {f : OnewayBitfield} (h : Corr9 n s f)
    (i : Nat) : OnewayBitset.get w s i = OnewayBitfield.get w f i := by
  obtain ⟨h1, h2, h3, h4, h5, h6, h7⟩ := h
  rw [OnewayBitset.get, OnewayBitfield.get]
  by_cases hf : f.flag_zero
  · rw [if_pos hf]
    have hz : s.blocks.getD (i / w) 0 = 0 :=
      getD_prop (P := fun x => x = 0) rfl _ (h7 (h6.trans (by rw [hf]))) _
    rw [hz, Nat.zero_shiftRight, Nat.zero_and]
    rfl
  · rw [if_neg hf, h5]

theorem corr_getAll {w n : Nat} {s : OnewayBitset} {f : OnewayBitfield} (h : Corr9 n s f) :
    OnewayBitset.getAll w s = OnewayBitfield.getAll w f := by
  obtain ⟨h1, h2, h3, h4, h5, h6, h7⟩ := h
  simp only [OnewayBitset.getAll, OnewayBitfield.getAll]
  rw [show s.nbits = f.nbits from h1.trans h2.symm, h5, h6]

theorem corr_any {n : Nat} {s : OnewayBitset} {f : OnewayBitfield} (h : Corr9 n s f) :
    s.any = f.any := by
  rw [OnewayBitset.any, OnewayBitfield.any, h.2.2.2.2.2.1]

theorem corr_none {n : Nat} {s : OnewayBitset} {f : OnewayBitfield} (h : Corr9 n s f) :
    s.none = f.none := by
  rw [OnewayBitset.none, OnewayBitfield.none, h.2.2.2.2.2.1]

theorem corr_all {w n : Nat} {s : OnewayBitset} {f : OnewayBitfield} (h : Corr9 n s f) :
    OnewayBitset.all w s = OnewayBitfield.all w f := by
  obtain ⟨h1, h2, h3, h4, h5, h6, h7⟩ := h
  rw [OnewayBitset.all, OnewayBitfield.all, h4, h5, h6]

theorem corr_count {n : Nat} {s : OnewayBitset} {f : OnewayBitfield} (h : Corr9 n s f) :
    s.count = f.count := by
  obtain ⟨h1, h2, h3, h4, h5, h6, h7⟩ := h
  rw [OnewayBitset.count, OnewayBitfield.count, h5, h6]

theorem corr_set {w n : Nat} {s : OnewayBitset} {f : OnewayBitfield} (h : Corr9 n s f)
    (i : Nat) : Corr9 n (OnewayBitset.set w s i) (OnewayBitfield.set w f i) := by
  obtain ⟨h1, h2, h3, h4, h5, h6, h7⟩ := h
  refine ⟨h1, h2, h3, h4, ?_, rfl, ?_⟩
  · show s.blocks.set (i / w) (s.blocks.getD (i / w) 0 ||| 1 <<< (i % w)) =
      f.blocks.set (i / w) (f.blocks.getD (i / w) 0 ||| 1 <<< (i % w))
    rw [h5]
  · intro hf
    exact absurd hf (by exact Bool.false_ne_true)

theorem corr_setAll {w n : Nat} {s : OnewayBitset} {f : OnewayBitfield} (h : Corr9 n s f) :
    Corr9 n (OnewayBitset.setAll w s) (OnewayBitfield.setAll w f) := by
  obtain ⟨h1, h2, h3, h4, h5, h6, h7⟩ := h
  refine ⟨h1, h2, h3, h4, ?_, rfl, ?_⟩
  · show setAllBlocks (allOnes w) s.padblk s.blocks = setAllBlocks (allOnes w) f.padblk f.blocks
    rw [h4, h5]
  · intro hf
    exact absurd hf (by exact Bool.false_ne_true)

theorem corr_reset {n : Nat} {s : OnewayBitset} {f : OnewayBitfield} (h : Corr9 n s f) :
    Corr9 n s.reset f.reset := by
  obtain ⟨h1, h2, h3, h4, h5, h6, h7⟩ := h
  refine ⟨h1, h2, h3, h4, ?_, rfl, ?_⟩
  · show s.blocks.map (fun _ => 0) = f.blocks.map (fun _ => 0)
    rw [h5]
  · intro _ b hb
    rcases List.mem_map.mp (hb : b ∈ s.blocks.map (fun _ => 0)) with ⟨a, _, rfl⟩
    rfl

theorem corr_merge {n : Nat} {s s' : OnewayBitset} {f f' : OnewayBitfield}
    (h : Corr9 n s f) (h' : Corr9 n s' f') : Corr9 n (s.merge s') (f.merge f') := by
  obtain ⟨h1, h2, h3, h4, h5, h6, h7⟩ := h
  obtain ⟨g1, g2, g3, g4, g5, g6, g7⟩ := h'
  rw [OnewayBitset.merge_of_eq (h1.trans g1.symm)]
  refine ⟨h1, h2, h3, h4, ?_, ?_, ?_⟩
  · show mergeBlocks s.blocks s'.blocks = mergeBlocks f.blocks f'.blocks
    rw [h5, g5]
  · show (s.flag_zero && s'.flag_zero) = (f.flag_zero && f'.flag_zero)
    rw [h6, g6]
  · intro hf b hb
    rcases Bool.and_eq_true_iff.mp hf with ⟨hfs, hft⟩
    exact mergeBlocks_mem_zero (h7 hfs) (g7 hft) b
      (hb : b ∈ mergeBlocks s.blocks s'.blocks)

theorem corr_mk {w sw n : Nat} (hn : 0 < n) (hsw : n < 2 ^ sw) :
    Corr9 n (mkBitset w (n : Int)) (mkBitfield w sw n) := by
  have hpos : (0 : Int) < (n : Int) := by exact_mod_cast hn
  have hnb : (mkBitset w (n : Int)).nbits = n := by
    simp [mkBitset, hpos]
  have hmod : (n + (2 ^ sw - 1)) % 2 ^ sw = n - 1 := by
    have hp := Nat.two_pow_pos sw
    rw [show n + (2 ^ sw - 1) = (n - 1) + 1 * 2 ^ sw by omega,
      Nat.add_mul_mod_self_right, Nat.mod_eq_of_lt (by omega)]
  have hblk : (mkBitset w (n : Int)).nblocks = (mkBitfield w sw n).nblocks := by
    simp only [mkBitset, mkBitfield, hpos, if_pos, hmod]
    rw [Int.toNat_natCast, if_pos hn]
  refine ⟨hnb, rfl, hblk, ?_, ?_, rfl, ?_⟩
  · show padblkOf w (if (n : Int) > 0 then (n : Int).toNat else 0) = padblkOf w n
    rw [if_pos hpos, Int.toNat_natCast]
  · show List.replicate (mkBitset w (n : Int)).nblocks 0 =
      List.replicate (mkBitfield w sw n).nblocks 0
    rw [hblk]
  · intro _ b hb
    exact List.eq_of_mem_replicate (hb : b ∈ List.replicate _ 0)

mutual

theorem corr_stepAll {w sw n : Nat} (hn : 0 < n) (hsw : n < 2 ^ sw)
    {s : OnewayBitset} {f : OnewayBitfield} (h : Corr9 n s f) :
    ∀ op : Op, Corr9 n (stepSet w (n : Int) s op) (stepField w sw n f op)
  | Op.set i => by
    simp only [stepSet, stepField]
    exact corr_set h i
  | Op.setAll => by
    simp only [stepSet, stepField]
    exact corr_setAll h
  | Op.reset => by
    simp only [stepSet, stepField]
    exact corr_reset h
  | Op.merge ops => by
    simp only [stepSet, stepField]
    exact corr_merge h (corr_runAll hn hsw (corr_mk hn hsw) ops)

theorem corr_runAll {w sw n : Nat} (hn : 0 < n) (hsw : n < 2 ^ sw)
    {s : OnewayBitset} {f : OnewayBitfield} (h : Corr9 n s f) :
    ∀ ops : List Op, Corr9 n (runSetFrom w (n : Int) s ops) (runFieldFrom w sw n f ops)
  | [] => by
    simp only [runSetFrom, runFieldFrom]
    exact h
  | op :: rest => by
    simp only [runSetFrom, runFieldFrom]
    exact corr_runAll hn hsw (corr_stepAll hn hsw h op) rest

end

/-! Facts about `get`, `set` and `count` of the full variant. -/

namespace OnewayBitset

theorem ext' {a b : OnewayBitset} (h1 : a.nbits = b.nbits) (h2 : a.nblocks = b.nblocks)
    (h3 : a.padblk = b.padblk) (h4 : a.blocks = b.blocks) (h5 : a.flag_zero = b.flag_zero) :
    a = b := by
  cases a; cases b; simp_all

theorem count_eq {s : OnewayBitset} (h : s.flag_zero = false) : s.count = sumKern s.blocks := by
  simp [OnewayBitset.count, h]

theorem get_eq_testBit (w : Nat) (s : OnewayBitset) (i : Nat) :
    get w s i = (s.blocks.getD (i / w) 0).testBit (i % w) := by
  rw [OnewayBitset.get, Nat.testBit_to_div_mod, Nat.shiftRight_eq_div_pow, Nat.and_one_is_mod]
  rcases Nat.mod_two_eq_zero_or_one (s.blocks.getD (i / w) 0 / 2 ^ (i % w)) with h | h <;>
    rw [h] <;> rfl

theorem blockIndex_lt {w : Nat} (hw : 0 < w) {s : OnewayBitset} (hwf : WF w s) {i : Nat}
    (hi : i < s.nbits) : i / w < s.blocks.length := by
  obtain ⟨h1, h2, h3, h4⟩ := hwf
  rw [h3, h1, if_pos (by omega)]
  exact div_lt_blocks hi

theorem get_set_self {w : Nat} (hw : 0 < w) {s : OnewayBitset} (hwf : WF w s) {i : Nat}
    (hi : i < s.nbits) : get w (set w s i) i = true := by
  have hbi := blockIndex_lt hw hwf hi
  rw [get_eq_testBit]
  show ((s.blocks.set (i / w) (s.blocks.getD (i / w) 0 ||| 1 <<< (i % w))).getD
    (i / w) 0).testBit (i % w) = true
  rw [getD_set_self _ _ _ hbi, Nat.testBit_or, Nat.shiftLeft_eq, Nat.one_mul,
    Nat.testBit_two_pow]
  simp

theorem count_set {w : Nat} (hw : 0 < w) {s : OnewayBitset} (hwf : WF w s)
    (hflag : s.flag_zero = true → ∀ b ∈ s.blocks, b = 0) {i : Nat} (hi : i < s.nbits) :
    (set w s i).count = s.count + (if get w s i then 0 else 1) := by
  have hbi := blockIndex_lt hw hwf hi
  have hsum := sumKern_set s.blocks (s.blocks.getD (i / w) 0 ||| 1 <<< (i % w)) (i / w) hbi
  have hkern : kern (s.blocks.getD (i / w) 0 ||| 1 <<< (i % w)) =
      kern (s.blocks.getD (i / w) 0) + (if get w s i then 0 else 1) := by
    rw [Nat.shiftLeft_eq, Nat.one_mul, get_eq_testBit]
    by_cases hb : (s.blocks.getD (i / w) 0).testBit (i % w)
    · rw [or_two_pow_of_testBit hb, if_pos hb]
      rfl
    · rw [kern_eq_popCt, kern_eq_popCt,
        popCt_or_two_pow _ _ (by simpa using hb), if_neg hb]
  have hcs : (set w s i).count =
      sumKern (s.blocks.set (i / w) (s.blocks.getD (i / w) 0 ||| 1 <<< (i % w))) :=
    count_eq rfl
  by_cases hf : s.flag_zero
  · have hz := hflag hf
    have hold : s.blocks.getD (i / w) 0 = 0 := getD_prop (P := fun x => x = 0) rfl _ hz _
    have hget : get w s i = false := by
      rw [get_eq_testBit, hold]
      exact Nat.zero_testBit _
    have hcount_s : s.count = 0 := by rw [OnewayBitset.count, if_pos hf]
    have hsb : sumKern s.blocks = 0 := sumKern_eq_zero hz
    rw [hcs, hcount_s, hget]
    rw [hget] at hkern
    have hkz : kern (s.blocks.getD (i / w) 0) = 0 := by rw [hold, kern_zero]
    omega
  · have hcount_s : s.count = sumKern s.blocks :=
      count_eq (by revert hf; cases s.flag_zero <;> simp)
    rw [hcs, hcount_s]
    omega

theorem bitset_merge_comm {s t : OnewayBitset} (h1 : s.nbits = t.nbits)
    (h2 : s.nblocks = t.nblocks) (h3 : s.padblk = t.padblk)
    (h4 : s.blocks.length = t.blocks.length) : s.merge t = t.merge s := by
  rw [merge_of_eq h1, merge_of_eq h1.symm]
  exact ext' h1 h2 h3 (mergeBlocks_comm _ _ h4) (Bool.and_comm _ _)

theorem bitset_merge_idem {s t : OnewayBitset} (h1 : s.nbits = t.nbits) :
    (s.merge t).merge t = s.merge t := by
  have hx : (s.merge t).nbits = t.nbits := by rw [merge_of_eq h1]; exact h1
  rw [merge_of_eq hx, merge_of_eq h1]
  refine ext' rfl rfl rfl ?_ ?_
  · show mergeBlocks (mergeBlocks s.blocks t.blocks) t.blocks = mergeBlocks s.blocks t.blocks
    exact mergeBlocks_idem _ _
  · show ((s.flag_zero && t.flag_zero) && t.flag_zero) = (s.flag_zero && t.flag_zero)
    cases s.flag_zero <;> cases t.flag_zero <;> rfl

theorem bitset_merge_zero {s t : OnewayBitset} (h1 : s.nbits = t.nbits)
    (hf : t.flag_zero = true) (hz : ∀ y ∈ t.blocks, y = 0) : s.merge t = s := by
  rw [merge_of_eq h1]
  exact ext' rfl rfl rfl (mergeBlocks_zero_right _ _ hz) (by rw [hf, Bool.and_true])

end OnewayBitset

namespace OnewayBitfield

theorem fext {a b : OnewayBitfield} (h1 : a.nbits = b.nbits) (h2 : a.nblocks = b.nblocks)
    (h3 : a.nrest = b.nrest) (h4 : a.padblk = b.padblk) (h5 : a.blocks = b.blocks)
    (h6 : a.flag_zero = b.flag_zero) : a = b := by
  cases a; cases b; simp_all

theorem fcount_eq {s : OnewayBitfield} (h : s.flag_zero = false) :
    s.count = sumKern s.blocks := by
  simp [OnewayBitfield.count, h]

theorem field_merge_comm {f g : OnewayBitfield} (h1 : f.nbits = g.nbits)
    (h2 : f.nblocks = g.nblocks) (h3 : f.nrest = g.nrest) (h4 : f.padblk = g.padblk)
    (h5 : f.blocks.length = g.blocks.length) : f.merge g = g.merge f :=
  fext h1 h2 h3 h4 (mergeBlocks_comm _ _ h5) (Bool.and_comm _ _)

theorem field_merge_idem (f g : OnewayBitfield) : (f.merge g).merge g = f.merge g :=
  fext rfl rfl rfl rfl (mergeBlocks_idem _ _)
    (by show ((f.flag_zero && g.flag_zero) && g.flag_zero) = (f.flag_zero && g.flag_zero)
        cases f.flag_zero <;> cases g.flag_zero <;> rfl)

theorem field_merge_zero {f g : OnewayBitfield} (hf : g.flag_zero = true)
    (hz : ∀ y ∈ g.blocks, y = 0) : f.merge g = f :=
  fext rfl rfl rfl rfl (mergeBlocks_zero_right _ _ hz)
    (by show (f.flag_zero && g.flag_zero) = f.flag_zero
        rw [hf, Bool.and_true])

end OnewayBitfield

theorem kern_255 : kern 255 = 8 := by
  rw [kern_step (by decide), show (255 &&& 254 : Nat) = 254 by decide,
    kern_step (by decide), show (254 &&& 253 : Nat) = 252 by decide,
    kern_step (by decide), show (252 &&& 251 : Nat) = 248 by decide,
    kern_step (by decide), show (248 &&& 247 : Nat) = 240 by decide,
    kern_step (by decide), show (240 &&& 239 : Nat) = 224 by decide,
    kern_step (by decide), show (224 &&& 223 : Nat) = 192 by decide,
    kern_step (by decide), show (192 &&& 191 : Nat) = 128 by decide,
    kern_step (by decide), show (128 &&& 127 : Nat) = 0 by decide, kern_zero]

/-! Claim theorems. -/

/-- C1: the claim says `setAll()` makes every logical bit 1, `all()` true,
`count() = n` and `get(i)` true for every valid `i`, in particular when `n` is
an exact multiple of the block width. The code violates this: for `n = 16`
with 8-bit blocks, `setAll()` writes `_padblk = 0` into the last block, so
`count()` returns 8 instead of 16 and `get(15)` is false, while `all()` still
returns true (it compares the last block against the same wrong `_padblk`).
The same happens in the reduced variant. -/
theorem setAll_full_block_bug :
    (mkBitset 8 16).nbits = 16 ∧
    OnewayBitset.count (OnewayBitset.setAll 8 (mkBitset 8 16)) = 8 ∧
    OnewayBitset.get 8 (OnewayBitset.setAll 8 (mkBitset 8 16)) 15 = false ∧
    OnewayBitset.all 8 (OnewayBitset.setAll 8 (mkBitset 8 16)) = true ∧
    OnewayBitfield.count (OnewayBitfield.setAll 8 (mkBitfield 8 64 16)) = 8 := by
  refine ⟨by decide, ?_, by decide, by decide, ?_⟩
  · have hb : (OnewayBitset.setAll 8 (mkBitset 8 16)).blocks = [255, 0] := by decide
    rw [OnewayBitset.count_eq (by decide), hb,
      show sumKern [255, 0] = kern 255 + (kern 0 + 0) from rfl, kern_zero, kern_255]
  · have hb : (OnewayBitfield.setAll 8 (mkBitfield 8 64 16)).blocks = [255, 0] := by decide
    rw [OnewayBitfield.fcount_eq (by decide), hb,
      show sumKern [255, 0] = kern 255 + (kern 0 + 0) from rfl, kern_zero, kern_255]

/-- C2: the claim says the pad mask equals the all-ones block when
`n mod blockWidth = 0`. The code computes `~(allOnes << 0) = 0` instead:
for `n = 16` with 8-bit blocks both variants store `padblk = 0`, not
`allOnes 8 = 255`. (The low-bits part of the claim, for `rest ≠ 0`, is what
`padblkOf_eq` proves: the mask is `2 ^ rest - 1`.) -/
theorem padblk_rest_zero_bug :
    (mkBitset 8 16).nbits % 8 = 0 ∧
    (mkBitset 8 16).padblk = 0 ∧
    (mkBitfield 8 64 16).padblk = 0 ∧
    allOnes 8 = 255 := by decide

/-- C3 counterexample: the reduced variant does not sanitize `nbits = 0`:
with `SizeT = size_t` (64-bit unsigned) and 8-bit blocks, `(0-1)/8 + 1`
wraps around and yields a gigantic block count, not 0. -/
theorem bitfield_zero_nblocks_not_zero : (mkBitfield 8 64 0).nblocks ≠ 0 := by decide

/-- C3 (amended): constructing with bit count 0 gives the canonical empty
state only for the full variant (`blockCount = 0`, no storage, `any()`/`all()`
false, `count() = 0`). The reduced variant computes
`blockCount = (2^sw - 1)/blockWidth + 1 ≠ 0` (a huge allocation for
`SizeT = size_t`), though `any()`/`all()` are still false and `count()` is
still 0 there. -/
theorem zero_bitcount_construction (w sw : Nat) :
    (mkBitset w 0).nblocks = 0 ∧ (mkBitset w 0).blocks = [] ∧
    (mkBitset w 0).any = false ∧ OnewayBitset.all w (mkBitset w 0) = false ∧
    (mkBitset w 0).count = 0 ∧
    (mkBitfield w sw 0).nblocks = (2 ^ sw - 1) / w + 1 ∧
    (mkBitfield w sw 0).nblocks ≠ 0 ∧
    (mkBitfield w sw 0).any = false ∧ OnewayBitfield.all w (mkBitfield w sw 0) = false ∧
    (mkBitfield w sw 0).count = 0 := by
  have hmod : (0 + (2 ^ sw - 1)) % 2 ^ sw = 2 ^ sw - 1 := by
    have hp := Nat.two_pow_pos sw
    rw [Nat.zero_add, Nat.mod_eq_of_lt (by omega)]
  refine ⟨rfl, rfl, rfl, rfl, rfl, ?_, ?_, rfl, rfl, rfl⟩
  · show (0 + (2 ^ sw - 1)) % 2 ^ sw / w + 1 = (2 ^ sw - 1) / w + 1
    rw [hmod]
  · show (0 + (2 ^ sw - 1)) % 2 ^ sw / w + 1 ≠ 0
    exact Nat.succ_ne_zero _

/-- C4: the emptiness flag is exact on every reachable state of the full
variant: flag true implies all blocks are 0; the flag is false immediately
after `set`/`setAll` and after `merge` with a matching-size non-empty operand;
it is true immediately after `reset()` and after construction. -/
theorem emptiness_flag_exact (w : Nat) (s : OnewayBitset)
    (hs : OnewayBitset.Reachable w s) :
    (s.flag_zero = true → ∀ b ∈ s.blocks, b = 0) ∧
    (∀ i : Nat, (OnewayBitset.set w s i).flag_zero = false) ∧
    (OnewayBitset.setAll w s).flag_zero = false ∧
    (∀ t : OnewayBitset, t.nbits = s.nbits → t.flag_zero = false →
      (s.merge t).flag_zero = false) ∧
    s.reset.flag_zero = true ∧
    (∀ n : Int, (mkBitset w n).flag_zero = true) :=
  ⟨OnewayBitset.flag_zero_blocks hs, fun _ => rfl, rfl,
   fun t ht hf => by
     rw [OnewayBitset.merge_of_eq ht.symm]
     show (s.flag_zero && t.flag_zero) = false
     rw [hf, Bool.and_false],
   rfl, fun _ => rfl⟩

/-- C4 witness: the invariant bundle instantiated on a concrete freshly
constructed 5-bit set. -/
theorem emptiness_flag_exact_witness :
    ((mkBitset 8 5).flag_zero = true → ∀ b ∈ (mkBitset 8 5).blocks, b = 0) ∧
    (∀ i : Nat, (OnewayBitset.set 8 (mkBitset 8 5) i).flag_zero = false) ∧
    (OnewayBitset.setAll 8 (mkBitset 8 5)).flag_zero = false ∧
    (∀ t : OnewayBitset, t.nbits = (mkBitset 8 5).nbits → t.flag_zero = false →
      ((mkBitset 8 5).merge t).flag_zero = false) ∧
    (mkBitset 8 5).reset.flag_zero = true ∧
    (∀ n : Int, (mkBitset 8 n).flag_zero = true) :=
  emptiness_flag_exact 8 (mkBitset 8 5) (OnewayBitset.Reachable.mk 5)

/-- C5: the padding bits of the final block stay 0 through every mutating
operation of the full variant: established at construction and by `reset`,
preserved by `set` at a valid index, by `setAll` on a well-formed non-empty
state, and by `merge` with a same-size operand whose padding is also clear. -/
theorem padding_invariant_preserved (w : Nat) (hw : 0 < w) :
    (∀ n : Int, OnewayBitset.PadZero w (mkBitset w n)) ∧
    (∀ (s : OnewayBitset) (i : Nat), OnewayBitset.PadZero w s → i < s.nbits →
      OnewayBitset.PadZero w (OnewayBitset.set w s i)) ∧
    (∀ s : OnewayBitset, 0 < s.nbits → s.nblocks = (s.nbits - 1) / w + 1 →
      s.padblk = padblkOf w s.nbits → s.blocks.length = s.nblocks →
      OnewayBitset.PadZero w (OnewayBitset.setAll w s)) ∧
    (∀ s : OnewayBitset, OnewayBitset.PadZero w s.reset) ∧
    (∀ s t : OnewayBitset, OnewayBitset.PadZero w s → OnewayBitset.PadZero w t →
      s.nbits = t.nbits → s.nblocks = t.nblocks → OnewayBitset.PadZero w (s.merge t)) :=
  ⟨fun n => OnewayBitset.padZero_mk w n,
   fun _ _ hp hi => OnewayBitset.padZero_set hp hi,
   fun _ hn h1 h2 h3 => OnewayBitset.padZero_setAll hw hn h1 h2 h3,
   fun s => OnewayBitset.padZero_reset s,
   fun _ _ hps hpt h1 h2 => OnewayBitset.padZero_merge hps hpt h1 h2⟩

/-- C5 witness: the preservation bundle instantiated at block width 8. -/
theorem padding_invariant_preserved_witness :
    (∀ n : Int, OnewayBitset.PadZero 8 (mkBitset 8 n)) ∧
    (∀ (s : OnewayBitset) (i : Nat), OnewayBitset.PadZero 8 s → i < s.nbits →
      OnewayBitset.PadZero 8 (OnewayBitset.set 8 s i)) ∧
    (∀ s : OnewayBitset, 0 < s.nbits → s.nblocks = (s.nbits - 1) / 8 + 1 →
      s.padblk = padblkOf 8 s.nbits → s.blocks.length = s.nblocks →
      OnewayBitset.PadZero 8 (OnewayBitset.setAll 8 s)) ∧
    (∀ s : OnewayBitset, OnewayBitset.PadZero 8 s.reset) ∧
    (∀ s t : OnewayBitset, OnewayBitset.PadZero 8 s → OnewayBitset.PadZero 8 t →
      s.nbits = t.nbits → s.nblocks = t.nblocks → OnewayBitset.PadZero 8 (s.merge t)) :=
  padding_invariant_preserved 8 (by decide)

/-- C6: for the full variant, `merge` between bitsets of different bit counts
is a complete no-op (the state, blocks and flag included, is returned
unchanged, with no error signalled) and `equals` returns false. -/
theorem merge_equals_size_mismatch (s t : OnewayBitset) (h : s.nbits ≠ t.nbits) :
    s.merge t = s ∧ s.equals t = false :=
  ⟨OnewayBitset.merge_of_ne h, by
    show (if s.nbits ≠ t.nbits then false else eqBlocks s.blocks t.blocks) = false
    rw [if_pos h]⟩

/-- C6 witness: a 3-bit and a 5-bit set. -/
theorem merge_equals_size_mismatch_witness :
    (mkBitset 8 3).merge (mkBitset 8 5) = mkBitset 8 3 ∧
    (mkBitset 8 3).equals (mkBitset 8 5) = false :=
  merge_equals_size_mismatch (mkBitset 8 3) (mkBitset 8 5) (by decide)

/-- C7: for equal-size operands (equal bit count and the derived constants
and array lengths that come with it), `merge` is commutative on the full
resulting state, idempotent, and merging an all-zero operand (flag set,
all blocks 0) is the identity — for both variants. -/
theorem merge_comm_idem_zero :
    (∀ s t : OnewayBitset, s.nbits = t.nbits → s.nblocks = t.nblocks →
      s.padblk = t.padblk → s.blocks.length = t.blocks.length →
      s.merge t = t.merge s) ∧
    (∀ s t : OnewayBitset, s.nbits = t.nbits → (s.merge t).merge t = s.merge t) ∧
    (∀ s t : OnewayBitset, s.nbits = t.nbits → t.flag_zero = true →
      (∀ y ∈ t.blocks, y = 0) → s.merge t = s) ∧
    (∀ f g : OnewayBitfield, f.nbits = g.nbits → f.nblocks = g.nblocks →
      f.nrest = g.nrest → f.padblk = g.padblk → f.blocks.length = g.blocks.length →
      f.merge g = g.merge f) ∧
    (∀ f g : OnewayBitfield, (f.merge g).merge g = f.merge g) ∧
    (∀ f g : OnewayBitfield, g.flag_zero = true → (∀ y ∈ g.blocks, y = 0) →
      f.merge g = f) :=
  ⟨fun _ _ h1 h2 h3 h4 => OnewayBitset.bitset_merge_comm h1 h2 h3 h4,
   fun _ _ h1 => OnewayBitset.bitset_merge_idem h1,
   fun _ _ h1 hf hz => OnewayBitset.bitset_merge_zero h1 hf hz,
   fun _ _ h1 h2 h3 h4 h5 => OnewayBitfield.field_merge_comm h1 h2 h3 h4 h5,
   fun f g => OnewayBitfield.field_merge_idem f g,
   fun _ _ hf hz => OnewayBitfield.field_merge_zero hf hz⟩

/-- C7 witness: the algebra instantiated on concrete 17-bit objects (one with
bit 3 set, one fresh). -/
theorem merge_comm_idem_zero_witness :
    (OnewayBitset.set 8 (mkBitset 8 17) 3).merge (mkBitset 8 17) =
      (mkBitset 8 17).merge (OnewayBitset.set 8 (mkBitset 8 17) 3) ∧
    ((OnewayBitset.set 8 (mkBitset 8 17) 3).merge (mkBitset 8 17)).merge (mkBitset 8 17) =
      (OnewayBitset.set 8 (mkBitset 8 17) 3).merge (mkBitset 8 17) ∧
    (OnewayBitset.set 8 (mkBitset 8 17) 3).merge (mkBitset 8 17) =
      OnewayBitset.set 8 (mkBitset 8 17) 3 ∧
    (OnewayBitfield.set 8 (mkBitfield 8 64 17) 3).merge (mkBitfield 8 64 17) =
      (mkBitfield 8 64 17).merge (OnewayBitfield.set 8 (mkBitfield 8 64 17) 3) := by
  have h := merge_comm_idem_zero
  refine ⟨h.1 _ _ (by decide) (by decide) (by decide) (by decide),
    h.2.1 _ _ (by decide),
    h.2.2.1 _ _ (by decide) (by decide) (by decide),
    h.2.2.2.1 _ _ (by decide) (by decide) (by decide) (by decide) (by decide)⟩

/-- C8: on every reachable state of the full variant and valid index `i`,
after `set(i)` the bit reads back true, `any()` is true, `none()` is false,
and `count()` grows by exactly 1 unless bit `i` was already set, in which
case it is unchanged. -/
theorem set_get_count_spec (w : Nat) (hw : 0 < w) (s : OnewayBitset)
    (hs : OnewayBitset.Reachable w s) (i : Nat) (hi : i < s.nbits) :
    OnewayBitset.get w (OnewayBitset.set w s i) i = true ∧
    (OnewayBitset.set w s i).any = true ∧
    (OnewayBitset.set w s i).none = false ∧
    (OnewayBitset.set w s i).count =
      s.count + (if OnewayBitset.get w s i then 0 else 1) := by
  have hwf := OnewayBitset.reachable_wf hw hs
  have hflag := OnewayBitset.flag_zero_blocks hs
  exact ⟨OnewayBitset.get_set_self hw hwf hi, rfl, rfl,
    OnewayBitset.count_set hw hwf hflag hi⟩

/-- C8 witness: a fresh 17-bit set and index 7. -/
theorem set_get_count_spec_witness :
    OnewayBitset.get 8 (OnewayBitset.set 8 (mkBitset 8 17) 7) 7 = true ∧
    (OnewayBitset.set 8 (mkBitset 8 17) 7).any = true ∧
    (OnewayBitset.set 8 (mkBitset 8 17) 7).none = false ∧
    (OnewayBitset.set 8 (mkBitset 8 17) 7).count =
      (mkBitset 8 17).count + (if OnewayBitset.get 8 (mkBitset 8 17) 7 then 0 else 1) :=
  set_get_count_spec 8 (by decide) (mkBitset 8 17) (OnewayBitset.Reachable.mk 17) 7 (by decide)

/-- C9: for the same bit count `n > 0` (representable in the reduced
variant's unsigned `SizeT`) and the same valid history of `set`, `setAll`,
`reset` and equal-size `merge` operations, the reduced variant agrees with
the full variant on `get(i)` for every valid `i`, on `getAll`'s buffer, on
`any()`/`none()`/`all()` and on `count()`. -/
theorem bitfield_refines_bitset (w sw n : Nat) (ops : List Op) (hn : 0 < n)
    (hsw : n < 2 ^ sw) (hvalid : ∀ op ∈ ops, ValidOp n op) :
    (∀ i, i < n →
      OnewayBitset.get w (runSetFrom w (n : Int) (mkBitset w (n : Int)) ops) i =
      OnewayBitfield.get w (runFieldFrom w sw n (mkBitfield w sw n) ops) i) ∧
    OnewayBitset.getAll w (runSetFrom w (n : Int) (mkBitset w (n : Int)) ops) =
      OnewayBitfield.getAll w (runFieldFrom w sw n (mkBitfield w sw n) ops) ∧
    (runSetFrom w (n : Int) (mkBitset w (n : Int)) ops).any =
      (runFieldFrom w sw n (mkBitfield w sw n) ops).any ∧
    (runSetFrom w (n : Int) (mkBitset w (n : Int)) ops).none =
      (runFieldFrom w sw n (mkBitfield w sw n) ops).none ∧
    OnewayBitset.all w (runSetFrom w (n : Int) (mkBitset w (n : Int)) ops) =
      OnewayBitfield.all w (runFieldFrom w sw n (mkBitfield w sw n) ops) ∧
    (runSetFrom w (n : Int) (mkBitset w (n : Int)) ops).count =
      (runFieldFrom w sw n (mkBitfield w sw n) ops).count := by
  have h := @corr_runAll w sw n hn hsw _ _ (@corr_mk w sw n hn hsw) ops
  exact ⟨fun i _ => corr_get h i, corr_getAll h, corr_any h, corr_none h,
    corr_all h, corr_count h⟩

/-- C9 witness: a concrete 17-bit history with a set, a nested merge,
a setAll and a reset. -/
theorem bitfield_refines_bitset_witness :
    (∀ i, i < 17 →
      OnewayBitset.get 8 (runSetFrom 8 (17 : Int) (mkBitset 8 (17 : Int))
        [Op.set 7, Op.merge [Op.set 16], Op.setAll, Op.reset]) i =
      OnewayBitfield.get 8 (runFieldFrom 8 64 17 (mkBitfield 8 64 17)
        [Op.set 7, Op.merge [Op.set 16], Op.setAll, Op.reset]) i) ∧
    OnewayBitset.getAll 8 (runSetFrom 8 (17 : Int) (mkBitset 8 (17 : Int))
        [Op.set 7, Op.merge [Op.set 16], Op.setAll, Op.reset]) =
      OnewayBitfield.getAll 8 (runFieldFrom 8 64 17 (mkBitfield 8 64 17)
        [Op.set 7, Op.merge [Op.set 16], Op.setAll, Op.reset]) ∧
    (runSetFrom 8 (17 : Int) (mkBitset 8 (17 : Int))
        [Op.set 7, Op.merge [Op.set 16], Op.setAll, Op.reset]).any =
      (runFieldFrom 8 64 17 (mkBitfield 8 64 17)
        [Op.set 7, Op.merge [Op.set 16], Op.setAll, Op.reset]).any ∧
    (runSetFrom 8 (17 : Int) (mkBitset 8 (17 : Int))
        [Op.set 7, Op.merge [Op.set 16], Op.setAll, Op.reset]).none =
      (runFieldFrom 8 64 17 (mkBitfield 8 64 17)
        [Op.set 7, Op.merge [Op.set 16], Op.setAll, Op.reset]).none ∧
    OnewayBitset.all 8 (runSetFrom 8 (17 : Int) (mkBitset 8 (17 : Int))
        [Op.set 7, Op.merge [Op.set 16], Op.setAll, Op.reset]) =
      OnewayBitfield.all 8 (runFieldFrom 8 64 17 (mkBitfield 8 64 17)
        [Op.set 7, Op.merge [Op.set 16], Op.setAll, Op.reset]) ∧
    (runSetFrom 8 (17 : Int) (mkBitset 8 (17 : Int))
        [Op.set 7, Op.merge [Op.set 16], Op.setAll, Op.reset]).count =
      (runFieldFrom 8 64 17 (mkBitfield 8 64 17)
        [Op.set 7, Op.merge [Op.set 16], Op.setAll, Op.reset]).count := by
  apply bitfield_refines_bitset 8 64 17
    [Op.set 7, Op.merge [Op.set 16], Op.setAll, Op.reset] (by decide) (by decide)
  intro op hop
  simp only [List.mem_cons, List.not_mem_nil, or_false] at hop
  rcases hop with rfl | rfl | rfl | rfl
  · exact ValidOp.set (by decide)
  · refine ValidOp.merge ?_
    intro op2 hop2
    simp only [List.mem_cons, List.not_mem_nil, or_false] at hop2
    rcases hop2 with rfl
    exact ValidOp.set (by decide)
  · exact ValidOp.setAll
  · exact ValidOp.reset

/-- C10: the full variant's constructor clamps every non-positive requested
bit count (including negative signed values) to the canonical empty state:
0 bits, 0 blocks, no storage, `none()` true, `count()` 0. -/
theorem ctor_sanitizes_nonpositive (w : Nat) (n : Int) (h : n ≤ 0) :
    (mkBitset w n).nbits = 0 ∧ (mkBitset w n).nblocks = 0 ∧
    (mkBitset w n).blocks = [] ∧ (mkBitset w n).none = true ∧
    (mkBitset w n).count = 0 := by
  have hng : ¬(n > 0) := by omega
  have h1 : (mkBitset w n).nbits = 0 := by simp [mkBitset, hng]
  have h2 : (mkBitset w n).nblocks = 0 := by simp [mkBitset, hng]
  refine ⟨h1, h2, ?_, rfl, rfl⟩
  show List.replicate (mkBitset w n).nblocks 0 = []
  rw [h2]
  rfl

/-- C10 witness: a negative requested size. -/
theorem ctor_sanitizes_nonpositive_witness :
    (mkBitset 8 (-5)).nbits = 0 ∧ (mkBitset 8 (-5)).nblocks = 0 ∧
    (mkBitset 8 (-5)).blocks = [] ∧ (mkBitset 8 (-5)).none = true ∧
    (mkBitset 8 (-5)).count = 0 :=
  ctor_sanitizes_nonpositive 8 (-5) (by decide)
